import Mathlib

set_option linter.unusedSectionVars false

/-!
Shallow embedding of the LRU cache in `cache/cache.go` of the repository
`vivekkothari/in-memory-cache`.

Modelling conventions:
* `time.Time` instants and `time.Duration` values both become `Int`
  (nanoseconds); `time.Now()` becomes an explicit `now : Int` argument to
  each operation, and `time.Since(t)` / `now.Sub(t)` become `now - t`.
* The Go struct keeps a map `cache : map[K]*list.Element` and a doubly linked
  recency list `order : *list.List` that every code path keeps in lockstep
  (each insertion/removal touches both).  The embedding represents the pair
  by a single association list `order : List (CacheItem K V)`, front =
  most-recently-used, back = least-recently-used; the map lookup
  `c.cache[key]` becomes `List.find?` on the key and the paired
  `order.Remove(elem)` / `delete(c.cache, key)` becomes `List.eraseP` on the
  key.
* The external listener is not state: each operation returns the list of
  listener notifications it performs, in call order, as `List (Event K)`.
* The backing store `func(K) (V, bool)` becomes `K → Option V`; the Go zero
  value of `V` becomes `(default : V)` from an `Inhabited V` instance.
-/

/-- Listener notifications, one constructor per method of `CacheListener`
in `cache/cache.go` (`OnHit`, `OnMiss`, `OnEvict`, `OnExpire`). -/
inductive Event (K : Type) where
  | hit (key : K)
  | miss (key : K)
  | evict (key : K)
  | expire (key : K)
deriving DecidableEq, Repr

/-- `CacheItem` from `cache/cache.go`: key, value, last-refresh instant
(`timestamp`), and effective TTL (`expiry`). -/
structure CacheItem (K V : Type) where
  key : K
  value : V
  timestamp : Int
  expiry : Int
deriving DecidableEq, Repr

/-- `LRUCache` from `cache/cache.go`.  The Go fields `cache` (map) and
`order` (recency list) are fused into the single recency-ordered list
`order` (front = most recently used); `mutex`, `cacheListener`,
`cleanupInterval` and `stopCleanup` carry no functional state and are
modelled separately (events are returned by each operation, the shutdown
channel is modelled by `CloseSystem` below). -/
structure LRUCache (K V : Type) where
  capacity : Int
  order : List (CacheItem K V)
  defaultTTL : Int
  backingStore : K → Option V

variable {K V : Type} [DecidableEq K] [Inhabited V]

/-- `NewLRUCache` from `cache/cache.go`: records the configuration and
starts with an empty index.  A `nil` backing store becomes the always
not-found loader, exactly as the Go constructor substitutes `refillStore`.
(The `cacheListener` argument only selects where notifications go and the
`cleanupInterval` only schedules `cleanupExpiredEntries` in real time;
neither affects the functional state.) -/
def NewLRUCache (capacity : Int) (defaultTTL : Int)
    (backingStore : Option (K → Option V)) : LRUCache K V :=
  { capacity := capacity
    order := []
    defaultTTL := defaultTTL
    backingStore := fun k =>
      match backingStore with
      | some f => f k
      | none => none }

/-- Staleness predicate of `cache/cache.go`: an item is stale at instant
`now` when `now.Sub(item.timestamp) > item.expiry` (the comparison used
verbatim in `Get` and in `cleanupExpiredEntries`). -/
def staleAt (now : Int) (it : CacheItem K V) : Bool :=
  decide (now - it.timestamp > it.expiry)

/-- `evict` from `cache/cache.go`: if the recency list has a back element,
delete its key from the map, notify `OnEvict` with that key, and remove the
element from the list; on an empty list do nothing. -/
def LRUCache.evict (c : LRUCache K V) : LRUCache K V × List (Event K) :=
  match c.order.getLast? with
  | none => (c, [])
  | some item => ({ c with order := c.order.dropLast }, [Event.evict item.key])

/-- `Put` from `cache/cache.go`: resolve the effective TTL (the optional
variadic `ttl` argument overrides `defaultTTL`); if the key is already held,
move its element to the front and overwrite value/timestamp/expiry in place
(no notification); otherwise evict when `len(c.cache) >= c.capacity`, then
push a fresh item at the front. -/
def LRUCache.Put (c : LRUCache K V) (now : Int) (k : K) (v : V)
    (ttl : Option Int) : LRUCache K V × List (Event K) :=
  let expiry := ttl.getD c.defaultTTL
  match c.order.find? (fun it => decide (it.key = k)) with
  | some item =>
      ({ c with order := ⟨item.key, v, now, expiry⟩ ::
          c.order.eraseP (fun it => decide (it.key = k)) }, [])
  | none =>
      let p := if c.capacity ≤ (c.order.length : Int) then c.evict else (c, [])
      ({ p.1 with order := ⟨k, v, now, expiry⟩ :: p.1.order }, p.2)

/-- `fetchFromBackingStore` from `cache/cache.go`: call the loader; on
`(value, true)` insert via `Put` (no TTL override, so the default TTL
applies) and return the value; on `(_, false)` return the zero value of `V`
and leave the cache untouched. -/
def LRUCache.fetchFromBackingStore (c : LRUCache K V) (now : Int) (k : K) :
    LRUCache K V × V × List (Event K) :=
  match c.backingStore k with
  | some v => ((c.Put now k v none).1, v, (c.Put now k v none).2)
  | none => (c, default, [])

/-- `Get` from `cache/cache.go`.  If the key is found the listener's
`OnHit` is notified immediately — before the staleness test; a stale entry
(`time.Since(item.timestamp) > item.expiry`) is then also notified as
`OnExpire`, removed, and refetched from the backing store.  A fresh entry is
moved to the front with its `timestamp` bumped to now, and its value
returned.  An absent key is notified as `OnMiss` and fetched from the
backing store. -/
def LRUCache.Get (c : LRUCache K V) (now : Int) (k : K) :
    LRUCache K V × V × List (Event K) :=
  match c.order.find? (fun it => decide (it.key = k)) with
  | some item =>
      if now - item.timestamp > item.expiry then
        let c2 : LRUCache K V :=
          { c with order := c.order.eraseP (fun it => decide (it.key = k)) }
        let r := c2.fetchFromBackingStore now k
        (r.1, r.2.1, Event.hit k :: Event.expire item.key :: r.2.2)
      else
        ({ c with order := ⟨item.key, item.value, now, item.expiry⟩ ::
            c.order.eraseP (fun it => decide (it.key = k)) },
         item.value, [Event.hit k])
  | none =>
      let r := c.fetchFromBackingStore now k
      (r.1, r.2.1, Event.miss k :: r.2.2)

/-- `Remove` from `cache/cache.go`: if the key is held, remove its element
from the recency list and delete it from the map; the body makes no
listener call on either path, so the event trace is always empty. -/
def LRUCache.Remove (c : LRUCache K V) (k : K) :
    LRUCache K V × List (Event K) :=
  ({ c with order := c.order.eraseP (fun it => decide (it.key = k)) }, [])

/-- `cleanupExpiredEntries` from `cache/cache.go`: scan all held entries
and, for each stale one (`now.Sub(item.timestamp) > item.expiry`), notify
`OnExpire` and remove it from list and map.  Go iterates the map in an
unspecified order and no entries are added during the scan, so the net
effect is exactly: keep the non-stale entries (relative order preserved) and
fire one `OnExpire` per stale entry; the event list here realises one
admissible iteration order (recency order). -/
def LRUCache.cleanupExpiredEntries (c : LRUCache K V) (now : Int) :
    LRUCache K V × List (Event K) :=
  ({ c with order := c.order.filter (fun it => !staleAt now it) },
   (c.order.filter (fun it => staleAt now it)).map (fun it => Event.expire it.key))

/-- One client-visible state-changing call, used to quantify over sequences
of operations (`Put`/`Get`/`Remove` from the public surface, plus the
scheduler's `cleanupExpiredEntries` sweep). -/
inductive Op (K V : Type) where
  | putOp (now : Int) (key : K) (value : V) (ttl : Option Int)
  | getOp (now : Int) (key : K)
  | removeOp (key : K)
  | cleanupOp (now : Int)

/-- State transition of a single operation (events discarded). -/
def stepOp (c : LRUCache K V) : Op K V → LRUCache K V
  | .putOp now k v ttl => (c.Put now k v ttl).1
  | .getOp now k => (c.Get now k).1
  | .removeOp k => (c.Remove k).1
  | .cleanupOp now => (c.cleanupExpiredEntries now).1

/-- Run a sequence of operations from a starting state. -/
def runOps (c : LRUCache K V) (ops : List (Op K V)) : LRUCache K V :=
  ops.foldl stepOp c

/-- Shutdown model for `Close` and `startCleanup` in `cache/cache.go`.
The source declares `var closeOnce sync.Once` at package level — a single
once-guard shared by every `LRUCache` instance of the process — while each
instance owns its private `stopCleanup` channel, whose closing makes that
instance's `startCleanup` loop return (stopping its sweeps).  The model
tracks the shared guard and, for `n` instances, which stop channels have
been closed. -/
structure CloseSystem (n : Nat) where
  onceUsed : Bool
  stopClosed : Fin n → Bool

/-- Fresh process state: the package-level `sync.Once` unused, every
instance's `stopCleanup` channel open (its sweep loop running). -/
def CloseSystem.init (n : Nat) : CloseSystem n :=
  { onceUsed := false, stopClosed := fun _ => false }

/-- `Close` from `cache/cache.go` invoked on instance `i`:
`closeOnce.Do(func() { close(c.stopCleanup) })` — the body runs only if the
shared package-level once is still unused, and then closes only instance
`i`'s channel.  It never fails, however many times it is called. -/
def CloseSystem.Close (s : CloseSystem n) (i : Fin n) : CloseSystem n :=
  if s.onceUsed then s
  else { onceUsed := true
         stopClosed := fun j => if j = i then true else s.stopClosed j }

/-- The lock modes offered by the `sync.RWMutex` field of `LRUCache`:
`RLock` (shared) and `Lock` (exclusive). -/
inductive LockMode where
  | shared
  | exclusive
deriving DecidableEq

/-- Kinds of access to the Recency Index (the `cache` map plus `order`
list) performed while a lock is held. -/
inductive Access where
  | read
  | write
deriving DecidableEq

/-- The code paths of `cache/cache.go` that touch the Recency Index.
`Get` splits into its three branches (miss; hit on a fresh entry; hit on a
stale entry). -/
inductive CodePath where
  | putPath
  | removePath
  | cleanupPath
  | getMissPath
  | getHitFreshPath
  | getHitStalePath
deriving DecidableEq

/-- Lock discipline read off `cache/cache.go`: `Put`, `Remove` and
`cleanupExpiredEntries` take `c.mutex.Lock()` (exclusive); `Get` takes
`c.mutex.RLock()` (shared) on every one of its branches, releasing it only
at its returns (`fetchFromBackingStore` runs after `RUnlock` and takes the
exclusive lock inside `Put`, which is `putPath`). -/
def lockOf : CodePath → LockMode
  | .putPath => .exclusive
  | .removePath => .exclusive
  | .cleanupPath => .exclusive
  | .getMissPath => .shared
  | .getHitFreshPath => .shared
  | .getHitStalePath => .shared

/-- Accesses to the Recency Index performed while the lock named by
`lockOf` is held, read off `cache/cache.go`: the `putPath` looks the key up
and inserts/updates (`MoveToFront`, `PushFront`, map writes); `removePath`
and `cleanupPath` look up and delete; `getMissPath` only reads the map;
`getHitFreshPath` calls `order.MoveToFront(elem)` and writes
`item.timestamp`; `getHitStalePath` calls `order.Remove(elem)` and
`delete(c.cache, key)`. -/
def accessesOf : CodePath → List Access
  | .putPath => [.read, .write]
  | .removePath => [.read, .write]
  | .cleanupPath => [.read, .write]
  | .getMissPath => [.read]
  | .getHitFreshPath => [.read, .write, .write]
  | .getHitStalePath => [.read, .write, .write]

/-- Branch equation: `evict` on an empty recency list does nothing. -/
theorem evict_eq_empty (c : LRUCache K V) (hg : c.order.getLast? = none) :
    c.evict = (c, []) := by
  unfold LRUCache.evict
  rw [hg]

/-- Branch equation: `evict` on a nonempty recency list drops the back
element and notifies `OnEvict` with its key. -/
theorem evict_eq_back (c : LRUCache K V) (item : CacheItem K V)
    (hg : c.order.getLast? = some item) :
    c.evict = ({ c with order := c.order.dropLast }, [Event.evict item.key]) := by
  unfold LRUCache.evict
  rw [hg]

/-- Branch equation: `Put` on a held key updates the item in place and
moves it to the front, with no notification. -/
theorem Put_eq_update (c : LRUCache K V) (now : Int) (k : K) (v : V)
    (ttl : Option Int) (item : CacheItem K V)
    (hf : c.order.find? (fun it => decide (it.key = k)) = some item) :
    c.Put now k v ttl =
      ({ c with order := ⟨item.key, v, now, ttl.getD c.defaultTTL⟩ ::
          c.order.eraseP (fun it => decide (it.key = k)) }, []) := by
  unfold LRUCache.Put
  rw [hf]

/-- Branch equation: `Put` of a fresh key when `len(cache) >= capacity`
first evicts, then pushes the new item at the front. -/
theorem Put_eq_insert_full (c : LRUCache K V) (now : Int) (k : K) (v : V)
    (ttl : Option Int)
    (hf : c.order.find? (fun it => decide (it.key = k)) = none)
    (hge : c.capacity ≤ (c.order.length : Int)) :
    c.Put now k v ttl =
      ({ c.evict.1 with order := ⟨k, v, now, ttl.getD c.defaultTTL⟩ ::
          c.evict.1.order }, c.evict.2) := by
  unfold LRUCache.Put
  rw [hf]
  simp only [if_pos hge]

/-- Branch equation: `Put` of a fresh key with spare capacity pushes the
new item at the front without evicting. -/
theorem Put_eq_insert_spare (c : LRUCache K V) (now : Int) (k : K) (v : V)
    (ttl : Option Int)
    (hf : c.order.find? (fun it => decide (it.key = k)) = none)
    (hlt : ¬ c.capacity ≤ (c.order.length : Int)) :
    c.Put now k v ttl =
      ({ c with order := ⟨k, v, now, ttl.getD c.defaultTTL⟩ :: c.order }, []) := by
  unfold LRUCache.Put
  rw [hf]
  simp only [if_neg hlt]

/-- Branch equation: `fetchFromBackingStore` on a successful load inserts
through `Put` (default TTL) and returns the loaded value. -/
theorem fetch_eq_found (c : LRUCache K V) (now : Int) (k : K) (v : V)
    (hb : c.backingStore k = some v) :
    c.fetchFromBackingStore now k =
      ((c.Put now k v none).1, v, (c.Put now k v none).2) := by
  unfold LRUCache.fetchFromBackingStore
  rw [hb]

/-- Branch equation: `fetchFromBackingStore` on a failed load returns the
zero value and leaves the cache untouched. -/
theorem fetch_eq_missing (c : LRUCache K V) (now : Int) (k : K)
    (hb : c.backingStore k = none) :
    c.fetchFromBackingStore now k = (c, default, []) := by
  unfold LRUCache.fetchFromBackingStore
  rw [hb]

/-- Branch equation: `Get` on an absent key notifies `OnMiss` and falls
through to the backing store. -/
theorem Get_eq_miss (c : LRUCache K V) (now : Int) (k : K)
    (hf : c.order.find? (fun it => decide (it.key = k)) = none) :
    c.Get now k =
      ((c.fetchFromBackingStore now k).1, (c.fetchFromBackingStore now k).2.1,
        Event.miss k :: (c.fetchFromBackingStore now k).2.2) := by
  unfold LRUCache.Get
  rw [hf]

/-- Branch equation: `Get` on a held fresh entry notifies `OnHit`, bumps
the timestamp to `now`, moves the entry to the front, and returns its
value. -/
theorem Get_eq_hit_fresh (c : LRUCache K V) (now : Int) (k : K)
    (item : CacheItem K V)
    (hf : c.order.find? (fun it => decide (it.key = k)) = some item)
    (hfresh : ¬ now - item.timestamp > item.expiry) :
    c.Get now k =
      ({ c with order := ⟨item.key, item.value, now, item.expiry⟩ ::
          c.order.eraseP (fun it => decide (it.key = k)) },
        item.value, [Event.hit k]) := by
  unfold LRUCache.Get
  rw [hf]
  simp only [if_neg hfresh]

/-- The state `Get`'s lazy-expiry path passes to the backing-store bridge:
the cache with the stale entry removed from list and map (the same state
change `Remove` performs). -/
def eraseKey (c : LRUCache K V) (k : K) : LRUCache K V :=
  { c with order := c.order.eraseP (fun it => decide (it.key = k)) }

/-- Branch equation: `Get` on a held stale entry notifies `OnHit` and then
`OnExpire`, removes the entry, and falls through to the backing store. -/
theorem Get_eq_hit_stale (c : LRUCache K V) (now : Int) (k : K)
    (item : CacheItem K V)
    (hf : c.order.find? (fun it => decide (it.key = k)) = some item)
    (hstale : now - item.timestamp > item.expiry) :
    c.Get now k =
      (((eraseKey c k).fetchFromBackingStore now k).1,
       ((eraseKey c k).fetchFromBackingStore now k).2.1,
       Event.hit k :: Event.expire item.key ::
         ((eraseKey c k).fetchFromBackingStore now k).2.2) := by
  unfold LRUCache.Get
  rw [hf]
  dsimp only
  rw [if_pos hstale]
  rfl

/-- The configuration fields (`capacity`, `defaultTTL`, `backingStore`) are
set once at construction; `evict` never changes them. -/
theorem evict_config (c : LRUCache K V) :
    c.evict.1.capacity = c.capacity ∧ c.evict.1.defaultTTL = c.defaultTTL ∧
      c.evict.1.backingStore = c.backingStore := by
  cases hg : c.order.getLast? with
  | none => rw [evict_eq_empty c hg]; exact ⟨rfl, rfl, rfl⟩
  | some item => rw [evict_eq_back c item hg]; exact ⟨rfl, rfl, rfl⟩

/-- `Put` never changes the configuration fields. -/
theorem Put_config (c : LRUCache K V) (now : Int) (k : K) (v : V)
    (ttl : Option Int) :
    (c.Put now k v ttl).1.capacity = c.capacity ∧
      (c.Put now k v ttl).1.defaultTTL = c.defaultTTL ∧
      (c.Put now k v ttl).1.backingStore = c.backingStore := by
  cases hf : c.order.find? (fun it => decide (it.key = k)) with
  | some item => rw [Put_eq_update c now k v ttl item hf]; exact ⟨rfl, rfl, rfl⟩
  | none =>
      by_cases hge : c.capacity ≤ (c.order.length : Int)
      · rw [Put_eq_insert_full c now k v ttl hf hge]
        exact evict_config c
      · rw [Put_eq_insert_spare c now k v ttl hf hge]
        exact ⟨rfl, rfl, rfl⟩

/-- `fetchFromBackingStore` never changes the configuration fields. -/
theorem fetch_config (c : LRUCache K V) (now : Int) (k : K) :
    (c.fetchFromBackingStore now k).1.capacity = c.capacity ∧
      (c.fetchFromBackingStore now k).1.defaultTTL = c.defaultTTL ∧
      (c.fetchFromBackingStore now k).1.backingStore = c.backingStore := by
  cases hb : c.backingStore k with
  | some v => rw [fetch_eq_found c now k v hb]; exact Put_config c now k v none
  | none => rw [fetch_eq_missing c now k hb]; exact ⟨rfl, rfl, rfl⟩

/-- `Get` never changes the configuration fields. -/
theorem Get_config (c : LRUCache K V) (now : Int) (k : K) :
    (c.Get now k).1.capacity = c.capacity ∧
      (c.Get now k).1.defaultTTL = c.defaultTTL ∧
      (c.Get now k).1.backingStore = c.backingStore := by
  cases hf : c.order.find? (fun it => decide (it.key = k)) with
  | some item =>
      by_cases hstale : now - item.timestamp > item.expiry
      · rw [Get_eq_hit_stale c now k item hf hstale]
        exact fetch_config (eraseKey c k) now k
      · rw [Get_eq_hit_fresh c now k item hf hstale]
        exact ⟨rfl, rfl, rfl⟩
  | none =>
      rw [Get_eq_miss c now k hf]
      exact fetch_config c now k

/-- Every event `Put` emits is an eviction notification: the `Put` body
itself never calls the listener, only `evict` does, and `evict` only calls
`OnEvict`. -/
theorem Put_events_evict (c : LRUCache K V) (now : Int) (k : K) (v : V)
    (ttl : Option Int) :
    ∀ e ∈ (c.Put now k v ttl).2, ∃ k0, e = Event.evict k0 := by
  cases hf : c.order.find? (fun it => decide (it.key = k)) with
  | some item => rw [Put_eq_update c now k v ttl item hf]; simp
  | none =>
      by_cases hge : c.capacity ≤ (c.order.length : Int)
      · rw [Put_eq_insert_full c now k v ttl hf hge]
        cases hg : c.order.getLast? with
        | none => rw [evict_eq_empty c hg]; simp
        | some item =>
            rw [evict_eq_back c item hg]
            intro e he
            simp at he
            exact ⟨item.key, he⟩
      · rw [Put_eq_insert_spare c now k v ttl hf hge]; simp

/-- `Put` bounds the index size by `max capacity 1`: an update leaves the
size unchanged; a fresh insert first evicts whenever `size ≥ capacity`. -/
theorem Put_length_le (c : LRUCache K V) (now : Int) (k : K) (v : V)
    (ttl : Option Int) (h : (c.order.length : Int) ≤ max c.capacity 1) :
    ((c.Put now k v ttl).1.order.length : Int) ≤ max c.capacity 1 := by
  have hM1 : (1 : Int) ≤ max c.capacity 1 := le_max_right _ _
  have hM2 : c.capacity ≤ max c.capacity 1 := le_max_left _ _
  cases hf : c.order.find? (fun it => decide (it.key = k)) with
  | some item =>
      rw [Put_eq_update c now k v ttl item hf]
      have hmem : item ∈ c.order := List.mem_of_find?_eq_some hf
      have hp := List.find?_some hf
      have he : (c.order.eraseP (fun it => decide (it.key = k))).length =
          c.order.length - 1 := List.length_eraseP_of_mem hmem hp
      have hpos : 0 < c.order.length :=
        List.length_pos.mpr (List.ne_nil_of_mem hmem)
      simp only [List.length_cons, he]
      omega
  | none =>
      by_cases hge : c.capacity ≤ (c.order.length : Int)
      · rw [Put_eq_insert_full c now k v ttl hf hge]
        cases hg : c.order.getLast? with
        | none =>
            rw [evict_eq_empty c hg]
            have h0 : c.order = [] := List.getLast?_eq_none_iff.mp hg
            simp only [List.length_cons, h0, List.length_nil]
            omega
        | some item =>
            rw [evict_eq_back c item hg]
            have h0 : c.order ≠ [] := by
              intro hnil
              rw [hnil] at hg
              simp at hg
            have hpos : 0 < c.order.length := List.length_pos.mpr h0
            simp only [List.length_cons, List.length_dropLast]
            omega
      · rw [Put_eq_insert_spare c now k v ttl hf hge]
        rw [not_le] at hge
        simp only [List.length_cons]
        omega

/-- `fetchFromBackingStore` bounds the index size by `max capacity 1`:
either it does nothing or it inserts through `Put`. -/
theorem fetch_length_le (c : LRUCache K V) (now : Int) (k : K)
    (h : (c.order.length : Int) ≤ max c.capacity 1) :
    ((c.fetchFromBackingStore now k).1.order.length : Int) ≤
      max c.capacity 1 := by
  cases hb : c.backingStore k with
  | some v => rw [fetch_eq_found c now k v hb]; exact Put_length_le c now k v none h
  | none => rw [fetch_eq_missing c now k hb]; exact h

/-- `Get` bounds the index size by `max capacity 1`: a fresh hit reorders
without changing the size, the lazy-expiry and miss paths only shrink the
index before a possible `Put`. -/
theorem Get_length_le (c : LRUCache K V) (now : Int) (k : K)
    (h : (c.order.length : Int) ≤ max c.capacity 1) :
    ((c.Get now k).1.order.length : Int) ≤ max c.capacity 1 := by
  cases hf : c.order.find? (fun it => decide (it.key = k)) with
  | some item =>
      by_cases hstale : now - item.timestamp > item.expiry
      · rw [Get_eq_hit_stale c now k item hf hstale]
        have hsub : (eraseKey c k).order.length ≤ c.order.length :=
          (List.eraseP_sublist c.order).length_le
        have hcap : (eraseKey c k).capacity = c.capacity := rfl
        have h2 : ((eraseKey c k).order.length : Int) ≤
            max (eraseKey c k).capacity 1 := by
          rw [hcap]
          omega
        have h3 := fetch_length_le (eraseKey c k) now k h2
        rw [hcap] at h3
        exact h3
      · rw [Get_eq_hit_fresh c now k item hf hstale]
        have hmem : item ∈ c.order := List.mem_of_find?_eq_some hf
        have hp := List.find?_some hf
        have he : (c.order.eraseP (fun it => decide (it.key = k))).length =
            c.order.length - 1 := List.length_eraseP_of_mem hmem hp
        have hpos : 0 < c.order.length :=
          List.length_pos.mpr (List.ne_nil_of_mem hmem)
        simp only [List.length_cons, he]
        omega
  | none =>
      rw [Get_eq_miss c now k hf]
      exact fetch_length_le c now k h

/-- A single operation of any kind keeps the configuration and keeps the
index size at most `max capacity 1`. -/
theorem stepOp_inv (c : LRUCache K V) (op : Op K V)
    (h : (c.order.length : Int) ≤ max c.capacity 1) :
    (stepOp c op).capacity = c.capacity ∧
      ((stepOp c op).order.length : Int) ≤ max c.capacity 1 := by
  cases op with
  | putOp now k v ttl =>
      exact ⟨(Put_config c now k v ttl).1, Put_length_le c now k v ttl h⟩
  | getOp now k =>
      exact ⟨(Get_config c now k).1, Get_length_le c now k h⟩
  | removeOp k =>
      refine ⟨rfl, ?_⟩
      have hsub : (c.order.eraseP (fun it => decide (it.key = k))).length ≤
          c.order.length := (List.eraseP_sublist c.order).length_le
      show ((c.order.eraseP (fun it => decide (it.key = k))).length : Int) ≤
        max c.capacity 1
      omega
  | cleanupOp now =>
      refine ⟨rfl, ?_⟩
      have hsub : (c.order.filter (fun it => !staleAt now it)).length ≤
          c.order.length := (List.filter_sublist c.order).length_le
      show ((c.order.filter (fun it => !staleAt now it)).length : Int) ≤
        max c.capacity 1
      omega

/-- Running any operation sequence keeps the index size at most
`max capacity 1` (the capacity itself never changes). -/
theorem runOps_inv (ops : List (Op K V)) (c : LRUCache K V)
    (h : (c.order.length : Int) ≤ max c.capacity 1) :
    (runOps c ops).capacity = c.capacity ∧
      ((runOps c ops).order.length : Int) ≤ max c.capacity 1 := by
  induction ops generalizing c with
  | nil => exact ⟨rfl, h⟩
  | cons op rest ih =>
      have h1 := stepOp_inv c op h
      have h2 := ih (stepOp c op) (by rw [h1.1]; exact h1.2)
      rw [h1.1] at h2
      exact ⟨h2.1, h2.2⟩

/-- C1, counterexample: with capacity 0 the claim's bound fails — a single
`Put` on a cache constructed with capacity 0 leaves one live entry, which
exceeds the capacity (the constructor performs no validation, so the cache
is live and usable). -/
theorem capacity_bound_fails_at_zero_capacity :
    ¬ (((runOps (NewLRUCache (K := Nat) (V := Nat) 0 100 none)
        [Op.putOp 0 1 1 none]).order.length : Int) ≤
        (NewLRUCache (K := Nat) (V := Nat) 0 100 none).capacity) := by decide

/-- C1 (amended): for every capacity `c ≥ 1` and every sequence of
operations on a cache constructed with capacity `c` (the sequence is
universally quantified, so the bound holds after every call of every
sequence), the number of live entries is at most `c`; sequences of `Put`
calls with distinct keys are the special case of put-only sequences. -/
theorem capacity_bound (cap defTTL : Int) (bs : Option (K → Option V))
    (hcap : 1 ≤ cap) (ops : List (Op K V)) :
    ((runOps (NewLRUCache cap defTTL bs) ops).order.length : Int) ≤ cap := by
  have h0 : (((NewLRUCache cap defTTL bs : LRUCache K V)).order.length : Int) ≤
      max (NewLRUCache cap defTTL bs : LRUCache K V).capacity 1 := by
    show ((([] : List (CacheItem K V)).length : Int)) ≤ max cap 1
    have hM1 : (1 : Int) ≤ max cap 1 := le_max_right _ _
    simp only [List.length_nil]
    omega
  have h := (runOps_inv ops (NewLRUCache cap defTTL bs) h0).2
  have hM : max (NewLRUCache cap defTTL bs : LRUCache K V).capacity 1 = cap := by
    show max cap 1 = cap
    exact max_eq_left hcap
  rw [hM] at h
  exact h

/-- C1 witness: the amended bound at capacity 1 with two distinct-key
puts. -/
theorem capacity_bound_witness :
    (1 : Int) ≤ 1 ∧
      ((runOps (NewLRUCache (K := Nat) (V := Nat) 1 100 none)
        [Op.putOp 0 1 1 none, Op.putOp 1 2 2 none]).order.length : Int) ≤ 1 :=
  ⟨by decide,
   capacity_bound 1 100 none (by decide) [Op.putOp 0 1 1 none, Op.putOp 1 2 2 none]⟩

/-- States of the LRU-order scenario of the spec: capacity 2, keys A=1,
B=2, C=3, a backing store that reports not-found for every key. -/
def lruDemo0 : LRUCache Nat Nat := NewLRUCache 2 100 none

/-- State after `Put(A)`. -/
def lruDemo1 : LRUCache Nat Nat := (lruDemo0.Put 0 1 1 none).1

/-- State after `Put(A) Put(B)`. -/
def lruDemo2 : LRUCache Nat Nat := (lruDemo1.Put 0 2 2 none).1

/-- Result (state and events) of the third call, `Put(C)`. -/
def lruDemoPut3 : LRUCache Nat Nat × List (Event Nat) := lruDemo2.Put 0 3 3 none

/-- Result of the subsequent `Get(A)`. -/
def lruDemoGet : LRUCache Nat Nat × Nat × List (Event Nat) :=
  lruDemoPut3.1.Get 0 1

/-- Full notification trace of the scenario
`Put(A) Put(B) Put(C) Get(A)`. -/
def lruDemoTrace : List (Event Nat) :=
  (lruDemo0.Put 0 1 1 none).2 ++ (lruDemo1.Put 0 2 2 none).2 ++
    lruDemoPut3.2 ++ lruDemoGet.2.2

/-- C2: with capacity 2, `Put(A) Put(B) Put(C)` (distinct keys) evicts
exactly A — the least-recently-touched key — firing `OnEvict(A)` at the
`Put(C)` call and exactly once in the whole trace; the subsequent `Get(A)`
(loader not-found everywhere) returns the zero value of `V` (here `0`) and
fires only `OnMiss(A)`. -/
theorem lru_eviction_order :
    lruDemoPut3.2 = [Event.evict 1] ∧
    lruDemoGet.2.1 = 0 ∧
    lruDemoGet.2.2 = [Event.miss 1] ∧
    lruDemoTrace.count (Event.evict 1) = 1 := by decide

/-- C5, counterexample: construction with capacity 0 is not rejected — the
constructor returns a live cache recording capacity 0, and the cache then
manifests exactly the silent always-evict behavior the claim says is
prevented: the first `Put` leaves one entry and the next new-key `Put`
silently evicts it. -/
theorem zero_capacity_construction_not_rejected :
    (NewLRUCache (K := Nat) (V := Nat) 0 100 none).capacity = 0 ∧
    ((NewLRUCache (K := Nat) (V := Nat) 0 100 none).Put 0 1 1
        none).1.order.length = 1 ∧
    (((NewLRUCache (K := Nat) (V := Nat) 0 100 none).Put 0 1 1 none).1.Put 0 2 2
        none).2 = [Event.evict 1] := by decide

/-- C5 (amended): `NewLRUCache` performs no capacity validation — a cache
constructed with capacity ≤ 0 is returned and behaves as a silent
always-evict cache: at most one entry is ever live, and every `Put` of a
fresh key while the index is nonempty evicts the held LRU entry. -/
theorem nonpositive_capacity_always_evicts (cap defTTL : Int)
    (bs : Option (K → Option V)) (hcap : cap ≤ 0) (ops : List (Op K V)) :
    (runOps (NewLRUCache cap defTTL bs) ops).order.length ≤ 1 ∧
    ∀ (c : LRUCache K V) (now : Int) (k : K) (v : V) (ttl : Option Int),
      c.capacity ≤ 0 →
      c.order.find? (fun it => decide (it.key = k)) = none →
      c.order ≠ [] →
      ∃ k0, (c.Put now k v ttl).2 = [Event.evict k0] := by
  constructor
  · have h0 : (((NewLRUCache cap defTTL bs : LRUCache K V)).order.length : Int) ≤
        max (NewLRUCache cap defTTL bs : LRUCache K V).capacity 1 := by
      show ((([] : List (CacheItem K V)).length : Int)) ≤ max cap 1
      have hM1 : (1 : Int) ≤ max cap 1 := le_max_right _ _
      simp only [List.length_nil]
      omega
    have h := (runOps_inv ops (NewLRUCache cap defTTL bs) h0).2
    have hM : max (NewLRUCache cap defTTL bs : LRUCache K V).capacity 1 = 1 := by
      show max cap 1 = 1
      exact max_eq_right (le_trans hcap zero_le_one)
    rw [hM] at h
    omega
  · intro c now k v ttl hc hf hne
    have hge : c.capacity ≤ (c.order.length : Int) :=
      le_trans hc (Int.natCast_nonneg _)
    cases hg : c.order.getLast? with
    | none => exact absurd (List.getLast?_eq_none_iff.mp hg) hne
    | some item =>
        rw [Put_eq_insert_full c now k v ttl hf hge, evict_eq_back c item hg]
        exact ⟨item.key, rfl⟩

/-- The one-entry capacity-0 cache used to witness the always-evict half of
the amended C5. -/
def zeroCapDemo : LRUCache Nat Nat :=
  ((NewLRUCache (K := Nat) (V := Nat) 0 100 none).Put 0 1 1 none).1

/-- C5 witness: the amended claim applied at capacity 0 — two puts leave at
most one entry, and a fresh-key `Put` on the nonempty capacity-0 cache
fires an eviction. -/
theorem nonpositive_capacity_always_evicts_witness :
    (0 : Int) ≤ 0 ∧
    (runOps (NewLRUCache (K := Nat) (V := Nat) 0 100 none)
      [Op.putOp 0 1 1 none, Op.putOp 0 2 2 none]).order.length ≤ 1 ∧
    ∃ k0, (zeroCapDemo.Put 5 2 2 none).2 = [Event.evict k0] :=
  ⟨by decide,
   (nonpositive_capacity_always_evicts 0 100 none (by decide)
     [Op.putOp 0 1 1 none, Op.putOp 0 2 2 none]).1,
   (nonpositive_capacity_always_evicts 0 100 none (by decide) []).2
     zeroCapDemo 5 2 2 none (by decide) (by decide) (by decide)⟩

/-- Every event emitted by the backing-store bridge is an eviction
notification (the bridge itself calls no listener; on success it inserts
through `Put`, whose only notification source is `evict`). -/
theorem fetch_events_evict (c : LRUCache K V) (now : Int) (k : K) :
    ∀ e ∈ (c.fetchFromBackingStore now k).2.2, ∃ k0, e = Event.evict k0 := by
  cases hb : c.backingStore k with
  | some v => rw [fetch_eq_found c now k v hb]; exact Put_events_evict c now k v none
  | none => rw [fetch_eq_missing c now k hb]; simp

/-- A one-entry cache (key 1, TTL 10, written at instant 0) whose entry is
stale by instant 100, with an always-not-found loader. -/
def staleHitDemo : LRUCache Nat Nat :=
  ((NewLRUCache (K := Nat) (V := Nat) 2 10 none).Put 0 1 7 none).1

/-- C3, counterexample: a `Get` that finds a stale entry does fire
`OnHit` — the code notifies `OnHit` as soon as the key is found, before the
staleness test, and then also fires `OnExpire` for the same call. -/
theorem onHit_fires_on_stale_hit :
    Event.hit 1 ∈ (staleHitDemo.Get 100 1).2.2 ∧
    Event.expire 1 ∈ (staleHitDemo.Get 100 1).2.2 := by decide

/-- C3 (amended): `Get(k)` fires `OnHit(k)` exactly when an entry for `k`
is present in the index at lookup time, live or stale (on the stale path
`OnExpire` fires as well); a `Get` that finds no entry never fires
`OnHit`. -/
theorem onHit_iff_key_found (c : LRUCache K V) (now : Int) (k : K) :
    Event.hit k ∈ (c.Get now k).2.2 ↔
      (c.order.find? (fun it => decide (it.key = k))).isSome := by
  cases hf : c.order.find? (fun it => decide (it.key = k)) with
  | some item =>
      simp only [Option.isSome_some, iff_true]
      by_cases hstale : now - item.timestamp > item.expiry
      · rw [Get_eq_hit_stale c now k item hf hstale]
        exact List.mem_cons_self _ _
      · rw [Get_eq_hit_fresh c now k item hf hstale]
        exact List.mem_cons_self _ _
  | none =>
      simp only [Option.isSome_none, Bool.false_eq_true, iff_false]
      rw [Get_eq_miss c now k hf]
      intro hmem
      rcases List.mem_cons.mp hmem with h1 | h2
      · exact Event.noConfusion h1
      · obtain ⟨k0, hk0⟩ := fetch_events_evict c now k _ h2
        exact Event.noConfusion hk0

/-- A one-entry cache (key 5 ↦ 7, TTL 100, written at instant 0) whose
entry is still fresh at instant 3. -/
def slidingDemo : LRUCache Nat Nat :=
  ((NewLRUCache (K := Nat) (V := Nat) 2 100 none).Put 0 5 7 none).1

/-- C6: a `Get`-hit on a live (non-stale) entry moves the entry to the
most-recently-used position (the front), bumps its `timestamp`
(refreshedAt) to `now`, leaves its value and ttl unchanged, leaves every
other entry untouched, and returns the stored value. -/
theorem get_hit_sliding_refresh (c : LRUCache K V) (now : Int) (k : K)
    (item : CacheItem K V)
    (hf : c.order.find? (fun it => decide (it.key = k)) = some item)
    (hfresh : ¬ now - item.timestamp > item.expiry) :
    (c.Get now k).1.order.head? =
        some ⟨item.key, item.value, now, item.expiry⟩ ∧
    (c.Get now k).1.order.tail =
        c.order.eraseP (fun it => decide (it.key = k)) ∧
    (c.Get now k).2.1 = item.value := by
  rw [Get_eq_hit_fresh c now k item hf hfresh]
  exact ⟨rfl, rfl, rfl⟩

/-- C6 witness: the sliding-refresh hit at instant 3 on `slidingDemo`. -/
theorem get_hit_sliding_refresh_witness :
    (slidingDemo.order.find? (fun it => decide (it.key = 5)) =
        some ⟨5, 7, 0, 100⟩) ∧
    (¬ (3 : Int) - 0 > 100) ∧
    (slidingDemo.Get 3 5).1.order.head? = some ⟨5, 7, 3, 100⟩ ∧
    (slidingDemo.Get 3 5).2.1 = 7 :=
  ⟨by decide, by decide,
   (get_hit_sliding_refresh slidingDemo 3 5 ⟨5, 7, 0, 100⟩ (by decide)
     (by decide)).1,
   (get_hit_sliding_refresh slidingDemo 3 5 ⟨5, 7, 0, 100⟩ (by decide)
     (by decide)).2.2⟩

/-- C10: `Remove(k)` performs no listener notification whatsoever — its
event trace is empty for every cache state and every key, present or
absent (unlike `evict`, which fires `OnEvict`, and the expiry paths, which
fire `OnExpire`). -/
theorem remove_fires_no_notifications (c : LRUCache K V) (k : K) :
    (c.Remove k).2 = [] := rfl

/-- C4: the shutdown guard is shared, not per-instance.  With two cache
instances in the process, closing instance 0 stops instance 0's sweep, but
the subsequent first `Close` on instance 1 finds the package-level
`closeOnce` already used and does nothing: instance 1's stop channel stays
open and its sweeps continue, contradicting the per-instance
`Running → Stopped` transition the claim states (the never-fails half does
hold: `Close` is total). -/
theorem close_once_shared_across_instances :
    (((CloseSystem.init 2).Close 0).stopClosed 0 = true) ∧
    ((((CloseSystem.init 2).Close 0).Close 1).stopClosed 1 = false) ∧
    ((((CloseSystem.init 2).Close 0).Close 1).onceUsed = true) := by decide

/-- C9: `Get` mutates the Recency Index while holding only the shared
(read) lock — both the fresh-hit path (`MoveToFront` plus the
`item.timestamp` write) and the lazy-expiry path (list and map removal) run
their writes under `RLock`, not under the exclusive lock the claim
requires. -/
theorem get_mutates_under_shared_lock :
    lockOf CodePath.getHitFreshPath = LockMode.shared ∧
    Access.write ∈ accessesOf CodePath.getHitFreshPath ∧
    lockOf CodePath.getHitStalePath = LockMode.shared ∧
    Access.write ∈ accessesOf CodePath.getHitStalePath := by decide

/-- After any `Put` the written key sits at the front of the recency list,
carrying the written value, the write instant as timestamp, and the
resolved TTL. -/
theorem Put_head (c : LRUCache K V) (now : Int) (k : K) (v : V)
    (ttl : Option Int) :
    (c.Put now k v ttl).1.order.head? =
      some ⟨k, v, now, ttl.getD c.defaultTTL⟩ := by
  cases hf : c.order.find? (fun it => decide (it.key = k)) with
  | some item =>
      have hk : item.key = k := by
        have hp := List.find?_some hf
        simp at hp
        exact hp
      rw [Put_eq_update c now k v ttl item hf]
      show some (⟨item.key, v, now, ttl.getD c.defaultTTL⟩ : CacheItem K V) = _
      rw [hk]
  | none =>
      by_cases hge : c.capacity ≤ (c.order.length : Int)
      · rw [Put_eq_insert_full c now k v ttl hf hge]
        rfl
      · rw [Put_eq_insert_spare c now k v ttl hf hge]
        rfl

/-- A first element satisfying the predicate is what `find?` returns. -/
theorem find?_of_head? {α : Type} {p : α → Bool} {l : List α} {a : α}
    (hh : l.head? = some a) (hp : p a = true) : l.find? p = some a := by
  cases l with
  | nil => simp at hh
  | cons b t =>
      simp only [List.head?_cons, Option.some.injEq] at hh
      subst hh
      exact List.find?_cons_of_pos t hp

/-- C7: the backing-store bridge contract.  On a successful load of `v`
the bridge returns `v` and inserts it at the most-recently-used position
with the cache-wide default TTL (no override is possible); consequently a
`Get` on an absent key whose loader finds `v` returns `v`, and an
immediately following `Get` of the same key returns `v` again without a
second `OnMiss`.  On a failed load the bridge returns the zero value of `V`
and leaves the cache state untouched. -/
theorem backing_store_refill_spec (c : LRUCache K V) (now : Int) (k : K) :
    (∀ v, c.backingStore k = some v →
      (c.fetchFromBackingStore now k).2.1 = v ∧
      (c.fetchFromBackingStore now k).1.order.head? =
        some ⟨k, v, now, c.defaultTTL⟩ ∧
      (c.order.find? (fun it => decide (it.key = k)) = none →
        (c.Get now k).2.1 = v ∧
        ((c.Get now k).1.Get now k).2.1 = v ∧
        Event.miss k ∉ ((c.Get now k).1.Get now k).2.2)) ∧
    (c.backingStore k = none →
      c.fetchFromBackingStore now k = (c, (default : V), [])) := by
  constructor
  · intro v hb
    refine ⟨?_, ?_, ?_⟩
    · rw [fetch_eq_found c now k v hb]
    · rw [fetch_eq_found c now k v hb]
      exact Put_head c now k v none
    · intro hnone
      have hget1st : c.Get now k =
          ((c.Put now k v none).1, v, Event.miss k :: (c.Put now k v none).2) := by
        rw [Get_eq_miss c now k hnone, fetch_eq_found c now k v hb]
      have hhead : (c.Put now k v none).1.order.head? =
          some ⟨k, v, now, c.defaultTTL⟩ := Put_head c now k v none
      have hf2 : (c.Put now k v none).1.order.find?
          (fun it => decide (it.key = k)) = some ⟨k, v, now, c.defaultTTL⟩ :=
        find?_of_head? hhead (by simp)
      have hbs2 : (c.Put now k v none).1.backingStore k = some v := by
        rw [(Put_config c now k v none).2.2]
        exact hb
      refine ⟨?_, ?_, ?_⟩
      · rw [hget1st]
      · rw [hget1st]
        show ((c.Put now k v none).1.Get now k).2.1 = v
        by_cases hstale2 : now - now > c.defaultTTL
        · rw [Get_eq_hit_stale (c.Put now k v none).1 now k
            ⟨k, v, now, c.defaultTTL⟩ hf2 hstale2]
          have hbs3 : (eraseKey (c.Put now k v none).1 k).backingStore k =
              some v := hbs2
          rw [fetch_eq_found (eraseKey (c.Put now k v none).1 k) now k v hbs3]
        · rw [Get_eq_hit_fresh (c.Put now k v none).1 now k
            ⟨k, v, now, c.defaultTTL⟩ hf2 hstale2]
      · rw [hget1st]
        show Event.miss k ∉ ((c.Put now k v none).1.Get now k).2.2
        by_cases hstale2 : now - now > c.defaultTTL
        · rw [Get_eq_hit_stale (c.Put now k v none).1 now k
            ⟨k, v, now, c.defaultTTL⟩ hf2 hstale2]
          intro hmem
          rcases List.mem_cons.mp hmem with h1 | hmem2
          · exact Event.noConfusion h1
          rcases List.mem_cons.mp hmem2 with h2 | hmem3
          · exact Event.noConfusion h2
          obtain ⟨k0, hk0⟩ :=
            fetch_events_evict (eraseKey (c.Put now k v none).1 k) now k _ hmem3
          exact Event.noConfusion hk0
        · rw [Get_eq_hit_fresh (c.Put now k v none).1 now k
            ⟨k, v, now, c.defaultTTL⟩ hf2 hstale2]
          intro hmem
          rcases List.mem_cons.mp hmem with h1 | h2
          · exact Event.noConfusion h1
          · simp at h2
  · intro hb
    exact fetch_eq_missing c now k hb

/-- The loader of the refill scenario: key 5 resolves to 42, every other
key is not found. -/
def refillStoreDemo : Nat → Option Nat := fun k => if k = 5 then some 42 else none

/-- An empty capacity-2 cache over `refillStoreDemo`. -/
def refillDemo : LRUCache Nat Nat := NewLRUCache 2 100 (some refillStoreDemo)

/-- C7 witness: the refill contract at key 5 (loader finds 42) and at key
6 (loader reports not-found). -/
theorem backing_store_refill_spec_witness :
    refillDemo.backingStore 5 = some 42 ∧
    refillDemo.order.find? (fun it => decide (it.key = 5)) = none ∧
    (refillDemo.Get 0 5).2.1 = 42 ∧
    ((refillDemo.Get 0 5).1.Get 0 5).2.1 = 42 ∧
    Event.miss 5 ∉ ((refillDemo.Get 0 5).1.Get 0 5).2.2 ∧
    refillDemo.backingStore 6 = none ∧
    refillDemo.fetchFromBackingStore 0 6 = (refillDemo, default, []) :=
  ⟨by decide, by decide,
   (((backing_store_refill_spec refillDemo 0 5).1 42 (by decide)).2.2
     (by decide)).1,
   (((backing_store_refill_spec refillDemo 0 5).1 42 (by decide)).2.2
     (by decide)).2.1,
   (((backing_store_refill_spec refillDemo 0 5).1 42 (by decide)).2.2
     (by decide)).2.2,
   by decide,
   (backing_store_refill_spec refillDemo 0 6).2 (by decide)⟩

/-- C8: one run of the eager sweep removes exactly the entries stale at
sweep time — each stale entry leaves the index and its key gets exactly one
`OnExpire` notification — while every non-stale entry stays in the index
and gets no `OnExpire`.  (The keys-nodup hypothesis is the map invariant:
the Go index holds at most one entry per key.) -/
theorem cleanup_removes_exactly_stale (c : LRUCache K V) (now : Int)
    (hnd : (c.order.map (fun it => it.key)).Nodup) :
    ∀ it ∈ c.order,
      (staleAt now it = true →
        it ∉ (c.cleanupExpiredEntries now).1.order ∧
        (c.cleanupExpiredEntries now).2.count (Event.expire it.key) = 1) ∧
      (staleAt now it = false →
        it ∈ (c.cleanupExpiredEntries now).1.order ∧
        Event.expire it.key ∉ (c.cleanupExpiredEntries now).2) := by
  intro it hmem
  have hexpInj : Function.Injective (Event.expire : K → Event K) := by
    intro a b h
    injection h
  constructor
  · intro hstale
    constructor
    · intro hmem2
      have hmem3 : it ∈ c.order.filter (fun s => !staleAt now s) := hmem2
      have hkeep := (List.mem_filter.mp hmem3).2
      rw [hstale] at hkeep
      simp at hkeep
    · show ((c.order.filter (fun s => staleAt now s)).map
          (fun s => Event.expire s.key)).count (Event.expire it.key) = 1
      have hmm : (c.order.filter (fun s => staleAt now s)).map
          (fun s => Event.expire s.key) =
          ((c.order.filter (fun s => staleAt now s)).map
            (fun s => s.key)).map Event.expire := by
        rw [List.map_map]
        rfl
      rw [hmm]
      rw [List.count_map_of_injective _ Event.expire hexpInj it.key]
      have hsub : List.Sublist
          ((c.order.filter (fun s => staleAt now s)).map (fun s => s.key))
          (c.order.map (fun s => s.key)) :=
        (List.filter_sublist c.order).map (fun s => s.key)
      have hndS := List.Nodup.sublist hsub hnd
      have hmemS : it.key ∈ (c.order.filter (fun s => staleAt now s)).map
          (fun s => s.key) :=
        List.mem_map_of_mem (fun s => s.key)
          (List.mem_filter.mpr ⟨hmem, hstale⟩)
      exact List.count_eq_one_of_mem hndS hmemS
  · intro hfresh
    constructor
    · show it ∈ c.order.filter (fun s => !staleAt now s)
      refine List.mem_filter.mpr ⟨hmem, ?_⟩
      rw [hfresh]
      rfl
    · intro hmemE
      have hmemE2 : Event.expire it.key ∈ (c.order.filter
          (fun s => staleAt now s)).map (fun s => Event.expire s.key) := hmemE
      obtain ⟨s, hsmem, hseq⟩ := List.mem_map.mp hmemE2
      have hskey : s.key = it.key := hexpInj hseq
      have hsIn : s ∈ c.order := (List.mem_filter.mp hsmem).1
      have hsStale : staleAt now s = true := (List.mem_filter.mp hsmem).2
      have hsit : s = it := List.inj_on_of_nodup_map hnd hsIn hmem hskey
      rw [hsit, hfresh] at hsStale
      exact Bool.noConfusion hsStale

/-- A two-entry cache for the sweep scenario: key 1 written at instant 0
with per-call TTL 5, key 2 written at instant 0 with the default TTL 100;
at instant 50 entry 1 is stale and entry 2 is fresh. -/
def sweepDemo : LRUCache Nat Nat :=
  (((NewLRUCache (K := Nat) (V := Nat) 2 100 none).Put 0 1 1
      (some 5)).1.Put 0 2 2 none).1

/-- C8 witness: the sweep at instant 50 on `sweepDemo` removes the stale
entry 1 and fires `OnExpire(1)` exactly once. -/
theorem cleanup_removes_exactly_stale_witness :
    (sweepDemo.order.map (fun it => it.key)).Nodup ∧
    (⟨1, 1, 0, 5⟩ : CacheItem Nat Nat) ∈ sweepDemo.order ∧
    staleAt 50 (⟨1, 1, 0, 5⟩ : CacheItem Nat Nat) = true ∧
    ((⟨1, 1, 0, 5⟩ : CacheItem Nat Nat) ∉
        (sweepDemo.cleanupExpiredEntries 50).1.order ∧
      (sweepDemo.cleanupExpiredEntries 50).2.count (Event.expire 1) = 1) :=
  ⟨by decide, by decide, by decide,
   (cleanup_removes_exactly_stale sweepDemo 50 (by decide) ⟨1, 1, 0, 5⟩
     (by decide)).1 (by decide)⟩
